import Mathlib

/-!
# Verification of training-loop and preprocessing utilities

Shallow embedding of selected functions of the `models` repository:

* `official/bert/model_training_utils.py` — step batching (`_steps_to_run`),
  the customized training loop's step/checkpoint/evaluation schedule, and its
  argument validation;
* `official/vision/keras_cv/ops/iou_similarity.py` — pairwise IoU and the
  rank validation of `IouSimilarity.__call__`;
* `official/vision/beta/ops/preprocess_ops_3d.py` — cyclic sequence sampling
  and `resize_smallest`;
* `official/nlp/keras_nlp/layers/transformer_encoder_block.py` —
  `TransformerEncoderBlock.call` as a pure data-flow over abstract tensor ops.

Machine integers of the source are modelled as `Nat`/`Int` (the quantities
involved are step counters and shapes, far from any 32/64-bit overflow in the
source's intended range, and Python integers are unbounded), tensor floats as
`ℚ` where arithmetic matters.
-/

namespace ModelsVerification

/-! ## `official/bert/model_training_utils.py` -/

/-- `_steps_to_run(current_step, steps_per_epoch, steps_per_loop)`
(model_training_utils.py lines 66–74): number of steps the device loop runs
before control returns to the host. -/
def stepsToRun (currentStep stepsPerEpoch stepsPerLoop : Nat) : Nat :=
  if stepsPerLoop ≤ 1 then stepsPerLoop
  else
    let remainderInEpoch := currentStep % stepsPerEpoch
    if remainderInEpoch ≠ 0 then
      min (stepsPerEpoch - remainderInEpoch) stepsPerLoop
    else
      stepsPerLoop

/-- Clamping of `steps_per_loop` performed by `run_customized_training_loop`
(lines 152–157): `if steps_per_loop > steps_per_epoch: steps_per_loop =
steps_per_epoch`. -/
def effectiveStepsPerLoop (stepsPerLoop stepsPerEpoch : Nat) : Nat :=
  if stepsPerLoop > stepsPerEpoch then stepsPerEpoch else stepsPerLoop

/-- Observable side effects of the training loop that the spec talks about:
checkpoint saves (`_save_checkpoint`), evaluation runs (`_run_evaluation`) and
resets of the evaluation metric (`eval_metric.reset_states()`), each tagged
with the `current_step` at which they happen. -/
inductive TrainEvent where
  | saveCkpt (step : Nat) : TrainEvent
  | runEval (step : Nat) : TrainEvent
  | resetEvalMetric (step : Nat) : TrainEvent
  deriving DecidableEq, Repr

/-- The epoch-boundary block of one loop iteration of
`run_customized_training_loop` (lines 306–319): after `current_step` has been
advanced to `nextStep`, when `nextStep` is a multiple of `steps_per_epoch`,
a checkpoint is saved unless the last step was reached (lines 307–312) and,
when an eval input function was given, evaluation runs and the eval metric is
reset (lines 314–319). -/
def epochBoundaryEvents (stepsPerEpoch totalTrainingSteps : Nat)
    (evalEnabled : Bool) (nextStep : Nat) : List TrainEvent :=
  if nextStep % stepsPerEpoch = 0 then
    (if nextStep < totalTrainingSteps then [.saveCkpt nextStep] else []) ++
    (if evalEnabled then [.runEval nextStep, .resetEvalMetric nextStep] else [])
  else []

/-- The `while current_step < total_training_steps` loop of
`run_customized_training_loop` (lines 282–327) together with the final
checkpoint save and final evaluation after the loop (lines 321–327),
restricted to the events of `TrainEvent`.  Each iteration advances
`current_step` by `_steps_to_run(...)` and emits the epoch-boundary events
for the new step.  `fuel` bounds the number of iterations so the model is
total; every theorem below supplies enough fuel for the loop to run to
completion. -/
def runTrainingLoop (fuel stepsPerEpoch stepsPerLoop totalTrainingSteps : Nat)
    (evalEnabled : Bool) (currentStep : Nat) : List TrainEvent × Nat :=
  match fuel with
  | 0 => ([], currentStep)
  | fuel + 1 =>
    if currentStep < totalTrainingSteps then
      let steps := stepsToRun currentStep stepsPerEpoch stepsPerLoop
      let nextStep := currentStep + steps
      let iterEvents : List TrainEvent :=
        epochBoundaryEvents stepsPerEpoch totalTrainingSteps evalEnabled nextStep
      let rest := runTrainingLoop fuel stepsPerEpoch stepsPerLoop totalTrainingSteps
        evalEnabled nextStep
      (iterEvents ++ rest.1, rest.2)
    else
      ([.saveCkpt currentStep] ++ (if evalEnabled then [.runEval currentStep] else []),
       currentStep)

/-- The successive values taken by `current_step` in the `while` loop of
`run_customized_training_loop` (lines 282–295), including the initial and the
final value. -/
def loopVisitedSteps (fuel stepsPerEpoch stepsPerLoop totalTrainingSteps currentStep : Nat) :
    List Nat :=
  match fuel with
  | 0 => [currentStep]
  | fuel + 1 =>
    if currentStep < totalTrainingSteps then
      currentStep :: loopVisitedSteps fuel stepsPerEpoch stepsPerLoop totalTrainingSteps
        (currentStep + stepsToRun currentStep stepsPerEpoch stepsPerLoop)
    else [currentStep]

/-- The argument configuration `run_customized_training_loop` validates
(lines 141–181).  Each field records the property of the Python argument the
code branches on: whether `_sentinel` was passed, which required arguments are
`None`, whether `eval_input_fn`/`eval_steps`/`metric_fn` were given, whether
`metric_fn` is callable, and whether the model returned by `model_fn` has an
`optimizer` attribute. -/
structure TrainLoopArgs where
  sentinelProvided : Bool
  strategyNone : Bool
  modelFnNone : Bool
  lossFnNone : Bool
  modelDirNone : Bool
  stepsPerEpochNone : Bool
  trainInputFnNone : Bool
  stepsPerLoop : Nat
  stepsPerEpoch : Nat
  evalInputFnProvided : Bool
  evalStepsNone : Bool
  metricFnProvided : Bool
  metricFnCallable : Bool
  modelHasOptimizer : Bool
  deriving DecidableEq, Repr

/-- The `ValueError`-raising validation prefix of
`run_customized_training_loop` (lines 141–166 and 179–181), in source order:
sentinel check, required-arguments check, `eval_input_fn` consistency check,
`metric_fn` callability check, and the `optimizer`-attribute check on the
model returned by `model_fn`.  Returns `some message` when the Python code
raises `ValueError`, `none` when validation passes.  The clamping of
`steps_per_loop` (lines 152–157) only logs an error and is not a raise. -/
def validateTrainingArgs (a : TrainLoopArgs) : Option String :=
  if a.sentinelProvided then
    some "only call run_customized_training_loop with named arguments"
  else if a.strategyNone || a.modelFnNone || a.lossFnNone || a.modelDirNone
      || a.stepsPerEpochNone || a.trainInputFnNone then
    some "required parameters"
  else if a.evalInputFnProvided && (a.evalStepsNone || !a.metricFnProvided) then
    some "eval_steps and metric_fn are required when eval_input_fn is not none"
  else if a.metricFnProvided && !a.metricFnCallable then
    some "if metric_fn is specified, metric_fn must be a callable"
  else if !a.modelHasOptimizer then
    some "User should set optimizer attribute to model inside model_fn"
  else
    none

/-! ## `official/vision/keras_cv/ops/iou_similarity.py`

A box is a row `[y_min, x_min, y_max, x_max]` of a `[N, 4]` float tensor.
The tensor computations `area`, `intersection` and `iou` act elementwise /
pairwise after broadcasting; the embedding expresses exactly those pairwise
scalar formulas, with `ℚ` for the float values. -/

/-- One row of a box tensor: `y_min, x_min, y_max, x_max` (the order
`tf.split` produces in iou_similarity.py lines 33–34). -/
structure Box where
  yMin : ℚ
  xMin : ℚ
  yMax : ℚ
  xMax : ℚ
  deriving DecidableEq, Repr, Inhabited

/-- `area(box)` (iou_similarity.py lines 20–35):
`(y_max - y_min) * (x_max - x_min)`. -/
def boxArea (b : Box) : ℚ :=
  (b.yMax - b.yMin) * (b.xMax - b.xMin)

/-- One entry of the pairwise `intersection(gt_boxes, boxes)` tensor
(iou_similarity.py lines 38–72): clamped overlap height times clamped overlap
width. -/
def intersectionElem (gt b : Box) : ℚ :=
  let intersectHeight := max 0 (min gt.yMax b.yMax - max gt.yMin b.yMin)
  let intersectWidth := max 0 (min gt.xMax b.xMax - max gt.xMin b.xMin)
  intersectHeight * intersectWidth

/-- One entry of the pairwise `iou(gt_boxes, boxes)` tensor (iou_similarity.py
lines 75–97): `tf.where(intersections == 0, 0, intersections / unions)` with
`unions = area(gt) + area(b) - intersections`. -/
def iouElem (gt b : Box) : ℚ :=
  let inter := intersectionElem gt b
  let unions := boxArea gt + boxArea b - inter
  if inter = 0 then 0 else inter / unions

/-- The `[N, M]` matrix produced by `iou` on rank-2 inputs, row `i` for
groundtruth box `i`, column `j` for anchor box `j`. -/
def iouMat (gtBoxes boxes : List Box) : List (List ℚ) :=
  gtBoxes.map fun g => boxes.map fun b => iouElem g b

/-- The `[N, M]` matrix of pairwise intersection areas on rank-2 inputs. -/
def intersectionMat (gtBoxes boxes : List Box) : List (List ℚ) :=
  gtBoxes.map fun g => boxes.map fun b => intersectionElem g b

/-- A box tensor argument of `IouSimilarity.__call__` as the code observes
it: the code first reads `len(tensor.shape)` (the rank) and only then
interprets the data.  Rank-2 data is a list of boxes, rank-3 data a batch of
lists of boxes; `badRank r` stands for a tensor of any other rank `r`. -/
inductive BoxesTensor where
  | badRank (rank : Nat) : BoxesTensor
  | rank2 (boxes : List Box) : BoxesTensor
  | rank3 (batches : List (List Box)) : BoxesTensor
  deriving DecidableEq, Repr

/-- `len(tensor.shape)` of a `BoxesTensor`. -/
def BoxesTensor.rank : BoxesTensor → Nat
  | .badRank r => r
  | .rank2 _ => 2
  | .rank3 _ => 3

/-- Well-formedness of the encoding: the `badRank` constructor is only used
for ranks other than 2 and 3 (those have dedicated constructors). -/
def BoxesTensor.WF : BoxesTensor → Prop
  | .badRank r => r ≠ 2 ∧ r ≠ 3
  | .rank2 _ => True
  | .rank3 _ => True

instance : DecidablePred BoxesTensor.WF := fun t => by
  cases t <;> simp [BoxesTensor.WF] <;> infer_instance

/-- Result tensor of `iou`: an `[N, M]` matrix or a batched `[B, N, M]`
stack. -/
inductive IouResult where
  | mat (m : List (List ℚ)) : IouResult
  | batched (ms : List (List (List ℚ))) : IouResult
  deriving DecidableEq, Repr

/-- `IouSimilarity.__call__(groundtruth_boxes, anchors)` (iou_similarity.py
lines 105–141): the three rank validations in source order, then the call to
`iou`.  On rank-3/rank-3 inputs the batch dimension pairs up
(`.batched (zipWith iouMat ...)`); on rank-3/rank-2 the rank-2 operand
broadcasts across the batch.  `Except.error` models `raise ValueError`. -/
def iouSimilarityCall (groundtruthBoxes anchors : BoxesTensor) :
    Except String IouResult :=
  let groundtruthRank := groundtruthBoxes.rank
  let anchorRank := anchors.rank
  if groundtruthRank < 2 ∨ groundtruthRank > 3 then
    .error "groundtruth_boxes must be rank 2 or 3"
  else if anchorRank < 2 ∨ anchorRank > 3 then
    .error "anchors must be rank 2 or 3"
  else if groundtruthRank < anchorRank then
    .error "groundtruth_boxes unbatched while anchors batched is not a valid use case"
  else
    match groundtruthBoxes, anchors with
    | .rank2 g, .rank2 b => .ok (.mat (iouMat g b))
    | .rank3 g, .rank3 b => .ok (.batched (List.zipWith iouMat g b))
    | .rank3 g, .rank2 b => .ok (.batched (g.map fun gi => iouMat gi b))
    | _, _ => .error "ill-formed BoxesTensor encoding"

/-! ## `official/vision/beta/ops/preprocess_ops_3d.py` -/

/-- `_sample_or_pad_sequence_indices(sequence, num_steps, stride, offset)`
(preprocess_ops_3d.py lines 22–37) applied to a sequence of length
`sequenceLength`: tiles `range(sequence_length)` enough times to cover
`num_steps * stride + offset` positions, then gathers the positions
`offset, offset + stride, ...` (`tf.range(offset, offset + num_steps * stride,
stride)`).  Returns the list of selected indices. -/
def sampleOrPadSequenceIndices (sequenceLength numSteps stride offset : Nat) :
    List Nat :=
  let selIdx := List.range sequenceLength
  let maxLength := numSteps * stride + offset
  let numRepeats := (maxLength + sequenceLength - 1) / sequenceLength
  let tiled := (List.replicate numRepeats selIdx).flatten
  let steps := (List.range numSteps).map fun i => offset + i * stride
  steps.map fun s => tiled.getD s 0

/-- `sample_sequence(sequence, num_steps, random, stride, seed)`
(preprocess_ops_3d.py lines 81–129).  The random draw
`tf.random.uniform((), maxval=max_offset)` is modelled by reducing an
arbitrary `randDraw : Nat` modulo `max_offset`, which ranges over exactly the
values the uniform draw can produce.  In the deterministic branch the Python
value is `max(0, (L - num_steps*stride) // 2)`; `Nat` subtraction already
truncates the negative case to `0`, matching the clamp. -/
def sampleSequence {α : Type} (sequence : List α) (numSteps : Nat)
    (random : Bool) (stride : Nat) (randDraw : Nat) (pad : α) : List α :=
  let sequenceLength := sequence.length
  let offset :=
    if random then
      let maxOffset :=
        if sequenceLength > (numSteps - 1) * stride then
          sequenceLength - (numSteps - 1) * stride
        else sequenceLength
      randDraw % maxOffset
    else
      (sequenceLength - numSteps * stride) / 2
  let indices := sampleOrPadSequenceIndices sequenceLength numSteps stride offset
  indices.map fun i => sequence.getD i pad

/-- The shape data `resize_smallest` inspects: a
`[timesteps, height, width, channels]` frames tensor.  `tag` stands for the
tensor's contents so that "returned unchanged" is expressible. -/
structure Frames where
  timesteps : Nat
  height : Nat
  width : Nat
  channels : Nat
  tag : Nat
  deriving DecidableEq, Repr

/-- The output height `resize_smallest` computes (preprocess_ops_3d.py line
206): `tf.maximum(min_resize, (input_h * min_resize) // input_w)`. -/
def resizeOutputH (h w minResize : Nat) : Nat :=
  max minResize (h * minResize / w)

/-- The output width `resize_smallest` computes (preprocess_ops_3d.py line
207): `tf.maximum(min_resize, (input_w * min_resize) // input_h)`. -/
def resizeOutputW (h w minResize : Nat) : Nat :=
  max minResize (w * minResize / h)

/-- `resize_smallest(frames, min_resize)` (preprocess_ops_3d.py lines
187–217).  `resizeFn` stands for the framework call
`tf.image.resize(frames, (output_h, output_w))` + cast; the function is a
parameter so that the theorem "the input is returned unchanged, without
resizing" quantifies over every possible resize implementation.  The
`tf.cond(should_resize, resize_fn, lambda: frames)` dispatch is the `if`. -/
def resizeSmallest (resizeFn : Frames → Nat → Nat → Frames)
    (frames : Frames) (minResize : Nat) : Frames :=
  let outputH := resizeOutputH frames.height frames.width minResize
  let outputW := resizeOutputW frames.height frames.width minResize
  let shouldResize := frames.width != outputW || frames.height != outputH
  if shouldResize then resizeFn frames outputH outputW else frames

/-! ## `official/nlp/keras_nlp/layers/transformer_encoder_block.py`

`TransformerEncoderBlock.call` (lines 237–275) is a data-flow over framework
sub-layers built in `build` (lines 114–193).  The embedding abstracts the
tensor type as `T` and every deterministic built sub-layer as a function
field; dropout — the only randomness — is modelled by `dropoutLayer`, which
applies a per-call noise function exactly when its rate is nonzero (a `Dropout`
layer with `rate=0`, and a `MultiHeadAttention` with `dropout=0`, are the
identity on / independent of the random stream). -/

/-- Configuration and built weights of a `TransformerEncoderBlock` that
`call` reads.  Per `build`: the `Dropout` layer stored in
`self._attention_dropout` is constructed with `rate=self._output_dropout`
(line 152) and the attention layer itself carries the internal dropout rate
`self._attention_dropout` (line 147, the rate set in `__init__`). -/
structure EncoderBlockLayer (T : Type) where
  outputRange : Option Nat
  normFirst : Bool
  outputDropoutRate : ℚ
  attentionDropoutRate : ℚ
  innerDropoutRate : ℚ
  sliceSeq : Nat → T → T
  sliceMask : Nat → T → T
  attentionCore : T → T → Option T → T
  attentionLayerNorm : T → T
  outputLayerNorm : T → T
  innerDense : T → T
  innerActivation : T → T
  outputDense : T → T
  castFloat32 : T → T
  add : T → T → T

/-- The fresh random draws of one `call`: one noise function per dropout
site (attention-internal, post-attention, inner, output).  Two different
calls see two unrelated values of this structure. -/
structure DropoutNoise (T : Type) where
  attentionInternal : T → T
  afterAttention : T → T
  inner : T → T
  output : T → T

/-- A framework dropout application: with `rate = 0` the input passes through
unchanged; otherwise the call's random noise is applied. -/
def dropoutLayer {T : Type} (rate : ℚ) (noise : T → T) (x : T) : T :=
  if rate = 0 then x else noise x

/-- The two-layer feedforward tail of `call` (lines 263–267):
`inner_dense`, `inner_activation`, inner dropout, `output_dense`, output
dropout. -/
def encoderFeedForward {T : Type} (L : EncoderBlockLayer T) (R : DropoutNoise T)
    (attentionOutput : T) : T :=
  let innerOutput := L.innerDense attentionOutput
  let innerOutput := L.innerActivation innerOutput
  let innerOutput := dropoutLayer L.innerDropoutRate R.inner innerOutput
  let layerOutput := L.outputDense innerOutput
  dropoutLayer L.outputDropoutRate R.output layerOutput

/-- `TransformerEncoderBlock.call(inputs)` (lines 237–275) on an already
unpacked `(input_tensor, attention_mask)` pair.  `Except.error` models the
Python exceptions the code can raise on its own: slicing a `None` mask when
`output_range` is set (line 245) and reading the unbound `source_tensor`
when `output_range` and `norm_first` are both set (line 256). -/
def transformerEncoderBlockCall {T : Type} (L : EncoderBlockLayer T)
    (R : DropoutNoise T) (inputTensor : T) (attentionMask : Option T) :
    Except String T :=
  let preamble : Except String (T × T × Option T × Option T) :=
    match L.outputRange with
    | some r =>
      match attentionMask with
      | none => .error "TypeError: NoneType object is not subscriptable"
      | some m =>
        .ok (L.sliceSeq r inputTensor, inputTensor, some (L.sliceMask r m), none)
    | none =>
      if L.normFirst then
        let normed := L.attentionLayerNorm inputTensor
        .ok (normed, normed, attentionMask, some inputTensor)
      else
        .ok (inputTensor, inputTensor, attentionMask, none)
  match preamble with
  | .error e => .error e
  | .ok (targetTensor, valueTensor, mask, sourceTensor?) =>
    let attentionOutput := dropoutLayer L.attentionDropoutRate R.attentionInternal
      (L.attentionCore targetTensor valueTensor mask)
    let attentionOutput := dropoutLayer L.outputDropoutRate R.afterAttention
      attentionOutput
    if L.normFirst then
      match sourceTensor? with
      | none => .error "NameError: source_tensor is not defined"
      | some sourceTensor =>
        let attentionOutput := L.add sourceTensor attentionOutput
        let sourceAttentionOutput := attentionOutput
        let attentionOutput := L.outputLayerNorm attentionOutput
        let layerOutput := encoderFeedForward L R attentionOutput
        .ok (L.add sourceAttentionOutput layerOutput)
    else
      let attentionOutput := L.attentionLayerNorm (L.add targetTensor attentionOutput)
      let layerOutput := encoderFeedForward L R attentionOutput
      .ok (L.outputLayerNorm (L.add (L.castFloat32 layerOutput) attentionOutput))

/-- A concrete `EncoderBlockLayer` over `T = Int` with every dropout rate
`0`, used to evaluate the embedding of `TransformerEncoderBlock.call` at a
concrete input. -/
def intEncoderLayer : EncoderBlockLayer Int where
  outputRange := none
  normFirst := false
  outputDropoutRate := 0
  attentionDropoutRate := 0
  innerDropoutRate := 0
  sliceSeq := fun r x => x + r
  sliceMask := fun r x => x + r
  attentionCore := fun q v m => q + 2 * v + m.getD 0
  attentionLayerNorm := fun x => x + 1
  outputLayerNorm := fun x => 3 * x
  innerDense := fun x => x + 7
  innerActivation := fun x => 2 * x
  outputDense := fun x => x - 5
  castFloat32 := fun x => x
  add := fun x y => x + y

/-- One concrete random stream for a call of the encoder block. -/
def noiseA : DropoutNoise Int where
  attentionInternal := fun x => x + 11
  afterAttention := fun x => x + 13
  inner := fun x => x + 17
  output := fun x => x + 19

/-- A second, different concrete random stream. -/
def noiseB : DropoutNoise Int where
  attentionInternal := fun x => 23 * x
  afterAttention := fun x => 29 * x
  inner := fun x => 31 * x
  output := fun x => 37 * x

/-! ## Helper lemmas on step batching -/

/-- `_steps_to_run` stays within `[1, steps_per_loop]` once
`steps_per_loop` is at least `1` and at most `steps_per_epoch`. -/
theorem stepsToRun_bounds (cs spe spl : Nat) (h1 : 1 ≤ spl) (h2 : spl ≤ spe) :
    1 ≤ stepsToRun cs spe spl ∧ stepsToRun cs spe spl ≤ spl := by
  have hspe : 1 ≤ spe := le_trans h1 h2
  have hrlt : cs % spe < spe := Nat.mod_lt _ (by omega)
  unfold stepsToRun
  by_cases hle : spl ≤ 1
  · simp [hle]
    omega
  · simp only [hle, if_false]
    by_cases hr : cs % spe = 0
    · simp [hr]
      omega
    · simp only [hr, ne_eq, not_false_eq_true, if_true]
      exact ⟨le_min (by omega) (by omega), min_le_right _ _⟩

/-- When `current_step` is inside an epoch, `_steps_to_run` never runs past
the remainder of that epoch. -/
theorem stepsToRun_le_gap (cs spe spl : Nat) (h1 : 1 ≤ spl) (h2 : spl ≤ spe)
    (hr : cs % spe ≠ 0) :
    stepsToRun cs spe spl ≤ spe - cs % spe := by
  have hspe : 1 ≤ spe := le_trans h1 h2
  have hrlt : cs % spe < spe := Nat.mod_lt _ (by omega)
  unfold stepsToRun
  by_cases hle : spl ≤ 1
  · simp [hle]
    omega
  · simp only [hle, if_false, hr, ne_eq, not_false_eq_true, if_true]
    exact min_le_left _ _

/-- Every multiple of `spe` strictly above `cs` lies at or above the multiple
following `cs`. -/
theorem next_mult_le (spe cs m : Nat) (_hspe : 1 ≤ spe) (hm : m % spe = 0)
    (hlt : cs < m) :
    spe * (cs / spe) + spe ≤ m := by
  obtain ⟨b, rfl⟩ : spe ∣ m := Nat.dvd_of_mod_eq_zero hm
  have hq : spe * (cs / spe) ≤ cs := Nat.mul_div_le cs spe
  have hb : cs / spe < b := by
    have h1 : spe * (cs / spe) < spe * b := lt_of_le_of_lt hq hlt
    exact Nat.lt_of_mul_lt_mul_left h1
  calc spe * (cs / spe) + spe = spe * (cs / spe + 1) := by ring
    _ ≤ spe * b := Nat.mul_le_mul_left _ hb

/-- `_steps_to_run` never crosses a multiple of `steps_per_epoch`: if `m` is
a multiple strictly beyond `current_step`, the batched step stays at or below
`m`. -/
theorem stepsToRun_le_of_multiple (cs spe spl m : Nat) (h1 : 1 ≤ spl)
    (h2 : spl ≤ spe) (hm : m % spe = 0) (hlt : cs < m) :
    cs + stepsToRun cs spe spl ≤ m := by
  have hspe : 1 ≤ spe := le_trans h1 h2
  have hgap := next_mult_le spe cs m hspe hm hlt
  have hdm := Nat.div_add_mod cs spe
  by_cases hr : cs % spe = 0
  · have hcs : spe * (cs / spe) = cs := by omega
    have hbound := (stepsToRun_bounds cs spe spl h1 h2).2
    omega
  · have hbound := stepsToRun_le_gap cs spe spl h1 h2 hr
    omega

/-! ## Helper lemmas on the training loop -/

/-- Every `current_step` value the loop visits is at least the starting
value. -/
theorem loopVisitedSteps_ge (fuel spe spl total cs x : Nat)
    (hx : x ∈ loopVisitedSteps fuel spe spl total cs) : cs ≤ x := by
  induction fuel generalizing cs with
  | zero =>
    simp [loopVisitedSteps] at hx
    omega
  | succ n ih =>
    rw [loopVisitedSteps] at hx
    by_cases hlt : cs < total
    · simp only [hlt, if_true, List.mem_cons] at hx
      rcases hx with rfl | hx
      · exact le_rfl
      · exact le_trans (Nat.le_add_right _ _) (ih _ hx)
    · simp [hlt] at hx
      omega

/-- Any multiple of `steps_per_epoch` between the starting step and the step
budget is visited by the loop, given enough fuel. -/
theorem loopVisitedSteps_mem (spe spl : Nat) (h1 : 1 ≤ spl) (h2 : spl ≤ spe)
    (fuel total cs m : Nat) (hm : m % spe = 0) (hcm : cs ≤ m) (hmt : m ≤ total)
    (hfuel : total - cs < fuel) :
    m ∈ loopVisitedSteps fuel spe spl total cs := by
  induction fuel generalizing cs with
  | zero => omega
  | succ n ih =>
    rw [loopVisitedSteps]
    by_cases hlt : cs < total
    · simp only [hlt, if_true, List.mem_cons]
      by_cases heq : cs = m
      · exact Or.inl heq.symm
      · have hclt : cs < m := by omega
        have hstep := stepsToRun_le_of_multiple cs spe spl m h1 h2 hm hclt
        have hpos := (stepsToRun_bounds cs spe spl h1 h2).1
        exact Or.inr (ih _ hstep (by omega))
    · simp [hlt]
      omega

/-- The loop visits each such multiple exactly once. -/
theorem loopVisitedSteps_count (spe spl : Nat) (h1 : 1 ≤ spl) (h2 : spl ≤ spe)
    (fuel total cs m : Nat) (hm : m % spe = 0) (hcm : cs ≤ m) (hmt : m ≤ total)
    (hfuel : total - cs < fuel) :
    (loopVisitedSteps fuel spe spl total cs).count m = 1 := by
  induction fuel generalizing cs with
  | zero => omega
  | succ n ih =>
    rw [loopVisitedSteps]
    by_cases hlt : cs < total
    · simp only [hlt, if_true, List.count_cons]
      have hpos := (stepsToRun_bounds cs spe spl h1 h2).1
      by_cases heq : cs = m
      · subst heq
        have hnot : cs ∉ loopVisitedSteps n spe spl total
            (cs + stepsToRun cs spe spl) := by
          intro hmem
          have := loopVisitedSteps_ge n spe spl total _ cs hmem
          omega
        rw [List.count_eq_zero.mpr hnot]
        simp
      · have hclt : cs < m := by omega
        have hstep := stepsToRun_le_of_multiple cs spe spl m h1 h2 hm hclt
        rw [ih _ hstep (by omega)]
        simp
        omega
    · simp only [hlt, if_false]
      have : cs = m := by omega
      subst this
      simp

/-- With enough fuel, the loop exits with `current_step` exactly equal to
the step budget. -/
theorem runTrainingLoop_final (spe spl : Nat) (h1 : 1 ≤ spl) (h2 : spl ≤ spe)
    (fuel total : Nat) (ev : Bool) (cs : Nat) (htot : total % spe = 0)
    (hcs : cs ≤ total) (hfuel : total - cs < fuel) :
    (runTrainingLoop fuel spe spl total ev cs).2 = total := by
  induction fuel generalizing cs with
  | zero => omega
  | succ n ih =>
    rw [runTrainingLoop]
    by_cases hlt : cs < total
    · simp only [hlt, if_true]
      have hpos := (stepsToRun_bounds cs spe spl h1 h2).1
      have hstep := stepsToRun_le_of_multiple cs spe spl total h1 h2 htot hlt
      exact ih _ hstep (by omega)
    · simp only [hlt, if_false]
      omega

/-- With enough fuel, the loop performs at most `total - current_step`
iterations (the visited list has at most `total - cs + 1` entries). -/
theorem loopVisitedSteps_length (spe spl : Nat) (h1 : 1 ≤ spl) (h2 : spl ≤ spe)
    (fuel total cs : Nat) :
    (loopVisitedSteps fuel spe spl total cs).length ≤ total - cs + 1 := by
  induction fuel generalizing cs with
  | zero => simp [loopVisitedSteps]
  | succ n ih =>
    rw [loopVisitedSteps]
    by_cases hlt : cs < total
    · simp only [hlt, if_true, List.length_cons]
      have hpos := (stepsToRun_bounds cs spe spl h1 h2).1
      have := ih (cs + stepsToRun cs spe spl)
      omega
    · simp [hlt]

/-- Checkpoint saves in one epoch-boundary block. -/
theorem count_save_epochBoundaryEvents (spe total ns : Nat) (ev : Bool) (m : Nat) :
    (epochBoundaryEvents spe total ev ns).count (TrainEvent.saveCkpt m) =
      if ns % spe = 0 ∧ ns < total ∧ m = ns then 1 else 0 := by
  unfold epochBoundaryEvents
  by_cases hmod : ns % spe = 0 <;> by_cases hnlt : ns < total <;>
    by_cases hev : ev = true <;> by_cases hmeq : m = ns <;>
      simp [hmod, hnlt, hev, hmeq, List.count_append, List.count_cons]

/-- Evaluation runs in one epoch-boundary block. -/
theorem count_eval_epochBoundaryEvents (spe total ns : Nat) (ev : Bool) (m : Nat) :
    (epochBoundaryEvents spe total ev ns).count (TrainEvent.runEval m) =
      if ns % spe = 0 ∧ ev = true ∧ m = ns then 1 else 0 := by
  unfold epochBoundaryEvents
  by_cases hmod : ns % spe = 0 <;> by_cases hnlt : ns < total <;>
    by_cases hev : ev = true <;> by_cases hmeq : m = ns <;>
      simp [hmod, hnlt, hev, hmeq, List.count_append, List.count_cons]

/-- Eval-metric resets in one epoch-boundary block. -/
theorem count_reset_epochBoundaryEvents (spe total ns : Nat) (ev : Bool) (m : Nat) :
    (epochBoundaryEvents spe total ev ns).count (TrainEvent.resetEvalMetric m) =
      if ns % spe = 0 ∧ ev = true ∧ m = ns then 1 else 0 := by
  unfold epochBoundaryEvents
  by_cases hmod : ns % spe = 0 <;> by_cases hnlt : ns < total <;>
    by_cases hev : ev = true <;> by_cases hmeq : m = ns <;>
      simp [hmod, hnlt, hev, hmeq, List.count_append, List.count_cons]

/-- The full characterization of checkpoint saves: a checkpoint for step `m`
is written exactly once if `m` is an epoch boundary strictly after the start
and at most the budget, or if `m` is the budget (the final save); otherwise
never. -/
theorem runTrainingLoop_count_save (spe spl : Nat) (h1 : 1 ≤ spl) (h2 : spl ≤ spe)
    (total : Nat) (htot : total % spe = 0) (ev : Bool) (m : Nat) (fuel : Nat) :
    ∀ cs, cs ≤ total → total - cs < fuel →
    (runTrainingLoop fuel spe spl total ev cs).1.count (TrainEvent.saveCkpt m) =
      if (m % spe = 0 ∧ cs < m ∧ m ≤ total) ∨ m = total then 1 else 0 := by
  induction fuel with
  | zero => intro cs _ hfuel; omega
  | succ n ih =>
    intro cs hcs hfuel
    rw [runTrainingLoop]
    by_cases hlt : cs < total
    · simp only [hlt, if_true, List.count_append]
      have hpos := (stepsToRun_bounds cs spe spl h1 h2).1
      have hnext : cs + stepsToRun cs spe spl ≤ total :=
        stepsToRun_le_of_multiple cs spe spl total h1 h2 htot hlt
      rw [ih (cs + stepsToRun cs spe spl) hnext (by omega),
        count_save_epochBoundaryEvents]
      by_cases hmeq : m = cs + stepsToRun cs spe spl
      · rw [← hmeq]
        split_ifs <;> omega
      · by_cases hm : m % spe = 0
        · by_cases hclt : cs < m
          · have hle : cs + stepsToRun cs spe spl ≤ m :=
              stepsToRun_le_of_multiple cs spe spl m h1 h2 hm hclt
            split_ifs <;> omega
          · split_ifs <;> omega
        · have hmt2 : m ≠ total := fun h => hm (h ▸ htot)
          split_ifs <;> omega
    · simp only [hlt, if_false]
      have heq : cs = total := by omega
      subst heq
      by_cases hev : ev = true <;> by_cases hmeq : m = cs <;>
        simp [hev, hmeq, List.count_append, List.count_cons] <;> split_ifs <;> omega

/-- The full characterization of evaluation runs: with evaluation enabled,
evaluation runs once at every epoch boundary strictly after the start and at
most the budget, plus a final evaluation at the budget after the loop; with
evaluation disabled it never runs.  (At `m = total` with the loop actually
running, the two contributions add up: one evaluation inside the loop at the
last step and one final evaluation.) -/
theorem runTrainingLoop_count_eval (spe spl : Nat) (h1 : 1 ≤ spl) (h2 : spl ≤ spe)
    (total : Nat) (htot : total % spe = 0) (ev : Bool) (m : Nat) (fuel : Nat) :
    ∀ cs, cs ≤ total → total - cs < fuel →
    (runTrainingLoop fuel spe spl total ev cs).1.count (TrainEvent.runEval m) =
      if ev = true then
        (if m % spe = 0 ∧ cs < m ∧ m ≤ total then 1 else 0) +
          (if m = total then 1 else 0)
      else 0 := by
  cases ev with
  | false =>
    simp only [Bool.false_eq_true, if_false]
    induction fuel with
    | zero => intro cs _ hfuel; omega
    | succ n ih =>
      intro cs hcs hfuel
      rw [runTrainingLoop]
      by_cases hlt : cs < total
      · simp only [hlt, if_true, List.count_append]
        have hpos := (stepsToRun_bounds cs spe spl h1 h2).1
        have hnext : cs + stepsToRun cs spe spl ≤ total :=
          stepsToRun_le_of_multiple cs spe spl total h1 h2 htot hlt
        rw [ih (cs + stepsToRun cs spe spl) hnext (by omega),
          count_eval_epochBoundaryEvents]
        simp
      · simp [hlt]
  | true =>
    simp only [if_pos rfl]
    induction fuel with
    | zero => intro cs _ hfuel; omega
    | succ n ih =>
      intro cs hcs hfuel
      rw [runTrainingLoop]
      by_cases hlt : cs < total
      · simp only [hlt, if_true, List.count_append]
        have hpos := (stepsToRun_bounds cs spe spl h1 h2).1
        have hnext : cs + stepsToRun cs spe spl ≤ total :=
          stepsToRun_le_of_multiple cs spe spl total h1 h2 htot hlt
        rw [ih (cs + stepsToRun cs spe spl) hnext (by omega),
          count_eval_epochBoundaryEvents]
        simp only [eq_self_iff_true, true_and, and_true]
        by_cases hmeq : m = cs + stepsToRun cs spe spl
        · rw [← hmeq]
          split_ifs <;> omega
        · by_cases hm : m % spe = 0
          · by_cases hclt : cs < m
            · have hle : cs + stepsToRun cs spe spl ≤ m :=
                stepsToRun_le_of_multiple cs spe spl m h1 h2 hm hclt
              split_ifs <;> omega
            · split_ifs <;> omega
          · have hmt2 : m ≠ total := fun h => hm (h ▸ htot)
            split_ifs <;> omega
      · simp only [hlt, if_false]
        have heq : cs = total := by omega
        subst heq
        by_cases hmeq : m = cs <;>
          simp [hmeq, List.count_append, List.count_cons] <;> split_ifs <;> omega

/-- The full characterization of eval-metric resets: with evaluation enabled,
the eval metric is reset once at every epoch boundary strictly after the
start and at most the budget (the final evaluation after the loop does not
reset it); with evaluation disabled it is never reset. -/
theorem runTrainingLoop_count_reset (spe spl : Nat) (h1 : 1 ≤ spl) (h2 : spl ≤ spe)
    (total : Nat) (htot : total % spe = 0) (ev : Bool) (m : Nat) (fuel : Nat) :
    ∀ cs, cs ≤ total → total - cs < fuel →
    (runTrainingLoop fuel spe spl total ev cs).1.count (TrainEvent.resetEvalMetric m) =
      if ev = true then
        (if m % spe = 0 ∧ cs < m ∧ m ≤ total then 1 else 0)
      else 0 := by
  cases ev with
  | false =>
    simp only [Bool.false_eq_true, if_false]
    induction fuel with
    | zero => intro cs _ hfuel; omega
    | succ n ih =>
      intro cs hcs hfuel
      rw [runTrainingLoop]
      by_cases hlt : cs < total
      · simp only [hlt, if_true, List.count_append]
        have hpos := (stepsToRun_bounds cs spe spl h1 h2).1
        have hnext : cs + stepsToRun cs spe spl ≤ total :=
          stepsToRun_le_of_multiple cs spe spl total h1 h2 htot hlt
        rw [ih (cs + stepsToRun cs spe spl) hnext (by omega),
          count_reset_epochBoundaryEvents]
        simp
      · simp [hlt]
  | true =>
    simp only [if_pos rfl]
    induction fuel with
    | zero => intro cs _ hfuel; omega
    | succ n ih =>
      intro cs hcs hfuel
      rw [runTrainingLoop]
      by_cases hlt : cs < total
      · simp only [hlt, if_true, List.count_append]
        have hpos := (stepsToRun_bounds cs spe spl h1 h2).1
        have hnext : cs + stepsToRun cs spe spl ≤ total :=
          stepsToRun_le_of_multiple cs spe spl total h1 h2 htot hlt
        rw [ih (cs + stepsToRun cs spe spl) hnext (by omega),
          count_reset_epochBoundaryEvents]
        simp only [eq_self_iff_true, true_and, and_true]
        by_cases hmeq : m = cs + stepsToRun cs spe spl
        · rw [← hmeq]
          split_ifs <;> omega
        · by_cases hm : m % spe = 0
          · by_cases hclt : cs < m
            · have hle : cs + stepsToRun cs spe spl ≤ m :=
                stepsToRun_le_of_multiple cs spe spl m h1 h2 hm hclt
              split_ifs <;> omega
            · split_ifs <;> omega
          · split_ifs <;> omega
      · simp only [hlt, if_false]
        have heq : cs = total := by omega
        subst heq
        simp [List.count_append, List.count_cons]
        split_ifs <;> omega

/-! ## Claim theorems: training loop -/

/-- **C1** — Step-batching never crosses an epoch boundary: for every
`current_step`, `steps_per_epoch ≥ 1` and `1 ≤ steps_per_loop ≤
steps_per_epoch`, `_steps_to_run` returns `s` with `1 ≤ s ≤ steps_per_loop`;
if `current_step` is not a multiple of `steps_per_epoch` then `current_step +
s` is at most the next multiple of `steps_per_epoch`; and the training loop's
`current_step` visits every multiple of `steps_per_epoch` between its start
value and `total_training_steps = steps_per_epoch * epochs` exactly once. -/
theorem claim_C1_step_batching (currentStep stepsPerEpoch stepsPerLoop : Nat)
    (h1 : 1 ≤ stepsPerLoop) (h2 : stepsPerLoop ≤ stepsPerEpoch) :
    (1 ≤ stepsToRun currentStep stepsPerEpoch stepsPerLoop ∧
      stepsToRun currentStep stepsPerEpoch stepsPerLoop ≤ stepsPerLoop) ∧
    (currentStep % stepsPerEpoch ≠ 0 →
      currentStep + stepsToRun currentStep stepsPerEpoch stepsPerLoop ≤
        stepsPerEpoch * (currentStep / stepsPerEpoch + 1)) ∧
    (∀ epochs fuel m, m % stepsPerEpoch = 0 → currentStep ≤ m →
      m ≤ stepsPerEpoch * epochs →
      stepsPerEpoch * epochs - currentStep < fuel →
      m ∈ loopVisitedSteps fuel stepsPerEpoch stepsPerLoop
          (stepsPerEpoch * epochs) currentStep ∧
      (loopVisitedSteps fuel stepsPerEpoch stepsPerLoop
          (stepsPerEpoch * epochs) currentStep).count m = 1) := by
  refine ⟨stepsToRun_bounds _ _ _ h1 h2, ?_, ?_⟩
  · intro hr
    have hspe : 1 ≤ stepsPerEpoch := le_trans h1 h2
    have hdm := Nat.div_add_mod currentStep stepsPerEpoch
    have hgap := stepsToRun_le_gap currentStep stepsPerEpoch stepsPerLoop h1 h2 hr
    have hrlt : currentStep % stepsPerEpoch < stepsPerEpoch :=
      Nat.mod_lt _ (by omega)
    have hmul : stepsPerEpoch * (currentStep / stepsPerEpoch + 1) =
        stepsPerEpoch * (currentStep / stepsPerEpoch) + stepsPerEpoch := by ring
    omega
  · intro epochs fuel m hm hcm hmt hfuel
    exact ⟨loopVisitedSteps_mem _ _ h1 h2 _ _ _ _ hm hcm hmt hfuel,
      loopVisitedSteps_count _ _ h1 h2 _ _ _ _ hm hcm hmt hfuel⟩

/-- Witness for C1 at `current_step = 5`, `steps_per_epoch = 4`,
`steps_per_loop = 3`, `epochs = 3`, boundary `m = 8`. -/
theorem claim_C1_step_batching_witness :
    (1 ≤ stepsToRun 5 4 3 ∧ stepsToRun 5 4 3 ≤ 3) ∧
    5 + stepsToRun 5 4 3 ≤ 4 * (5 / 4 + 1) ∧
    8 ∈ loopVisitedSteps 13 4 3 (4 * 3) 5 ∧
    (loopVisitedSteps 13 4 3 (4 * 3) 5).count 8 = 1 := by
  have h := claim_C1_step_batching 5 4 3 (by decide) (by decide)
  have h3 := h.2.2 3 13 8 (by decide) (by decide) (by decide) (by decide)
  exact ⟨h.1, h.2.1 (by decide), h3.1, h3.2⟩

/-- **C2** — Checkpoint/evaluation schedule of
`run_customized_training_loop`: a checkpoint for step `m` is saved exactly
once when `m` is an epoch boundary after the start (the save at an interior
boundary, or the single final save at the budget — no duplicate save happens
at the budget); when evaluation is enabled, evaluation runs at every epoch
boundary reached inside the loop plus once more after the loop, and the eval
metric is reset exactly at the boundaries reached inside the loop. -/
theorem claim_C2_checkpoint_eval_schedule
    (stepsPerEpoch epochs stepsPerLoop currentStep : Nat)
    (h1 : 1 ≤ stepsPerEpoch) (_h2 : 1 ≤ epochs) (h3 : 1 ≤ stepsPerLoop)
    (hcs : currentStep ≤ stepsPerEpoch * epochs) (ev : Bool) (fuel : Nat)
    (hfuel : stepsPerEpoch * epochs - currentStep < fuel) (m : Nat) :
    ((runTrainingLoop fuel stepsPerEpoch
        (effectiveStepsPerLoop stepsPerLoop stepsPerEpoch)
        (stepsPerEpoch * epochs) ev currentStep).1.count (TrainEvent.saveCkpt m) =
      if (m % stepsPerEpoch = 0 ∧ currentStep < m ∧ m ≤ stepsPerEpoch * epochs) ∨
          m = stepsPerEpoch * epochs then 1 else 0) ∧
    ((runTrainingLoop fuel stepsPerEpoch
        (effectiveStepsPerLoop stepsPerLoop stepsPerEpoch)
        (stepsPerEpoch * epochs) ev currentStep).1.count (TrainEvent.runEval m) =
      if ev = true then
        (if m % stepsPerEpoch = 0 ∧ currentStep < m ∧ m ≤ stepsPerEpoch * epochs
          then 1 else 0) +
        (if m = stepsPerEpoch * epochs then 1 else 0)
      else 0) ∧
    ((runTrainingLoop fuel stepsPerEpoch
        (effectiveStepsPerLoop stepsPerLoop stepsPerEpoch)
        (stepsPerEpoch * epochs) ev currentStep).1.count
          (TrainEvent.resetEvalMetric m) =
      if ev = true then
        (if m % stepsPerEpoch = 0 ∧ currentStep < m ∧ m ≤ stepsPerEpoch * epochs
          then 1 else 0)
      else 0) := by
  have heff1 : 1 ≤ effectiveStepsPerLoop stepsPerLoop stepsPerEpoch := by
    unfold effectiveStepsPerLoop
    split_ifs <;> omega
  have heff2 : effectiveStepsPerLoop stepsPerLoop stepsPerEpoch ≤ stepsPerEpoch := by
    unfold effectiveStepsPerLoop
    split_ifs <;> omega
  have htot : (stepsPerEpoch * epochs) % stepsPerEpoch = 0 := Nat.mul_mod_right _ _
  exact ⟨runTrainingLoop_count_save _ _ heff1 heff2 _ htot ev m fuel
      currentStep hcs hfuel,
    runTrainingLoop_count_eval _ _ heff1 heff2 _ htot ev m fuel
      currentStep hcs hfuel,
    runTrainingLoop_count_reset _ _ heff1 heff2 _ htot ev m fuel
      currentStep hcs hfuel⟩

/-- Witness for C2 at `steps_per_epoch = 2`, `epochs = 2`,
`steps_per_loop = 2`, start `0`, evaluation enabled, boundary `m = 2`. -/
theorem claim_C2_checkpoint_eval_schedule_witness :
    ((runTrainingLoop 5 2 (effectiveStepsPerLoop 2 2) (2 * 2) true 0).1.count
        (TrainEvent.saveCkpt 2) =
      if (2 % 2 = 0 ∧ 0 < 2 ∧ 2 ≤ 2 * 2) ∨ 2 = 2 * 2 then 1 else 0) ∧
    ((runTrainingLoop 5 2 (effectiveStepsPerLoop 2 2) (2 * 2) true 0).1.count
        (TrainEvent.runEval 2) =
      if true = true then
        (if 2 % 2 = 0 ∧ 0 < 2 ∧ 2 ≤ 2 * 2 then 1 else 0) +
        (if 2 = 2 * 2 then 1 else 0)
      else 0) ∧
    ((runTrainingLoop 5 2 (effectiveStepsPerLoop 2 2) (2 * 2) true 0).1.count
        (TrainEvent.resetEvalMetric 2) =
      if true = true then
        (if 2 % 2 = 0 ∧ 0 < 2 ∧ 2 ≤ 2 * 2 then 1 else 0)
      else 0) :=
  claim_C2_checkpoint_eval_schedule 2 2 2 0 (by decide) (by decide) (by decide)
    (by decide) true 5 (by decide) 2

/-- **C3** — The training loop terminates exactly at the step budget: with
`steps_per_epoch ≥ 1`, `epochs ≥ 1`, `steps_per_loop ≥ 1` (clamped as the
code does) and any start `current_step ≤ steps_per_epoch * epochs`, the loop
makes at most `total - current_step` iterations and exits with `current_step
= steps_per_epoch * epochs` exactly — it never overshoots. -/
theorem claim_C3_loop_terminates_exactly
    (stepsPerEpoch epochs stepsPerLoop currentStep : Nat)
    (h1 : 1 ≤ stepsPerEpoch) (_h2 : 1 ≤ epochs) (h3 : 1 ≤ stepsPerLoop)
    (hcs : currentStep ≤ stepsPerEpoch * epochs) (ev : Bool) (fuel : Nat)
    (hfuel : stepsPerEpoch * epochs - currentStep < fuel) :
    (runTrainingLoop fuel stepsPerEpoch
        (effectiveStepsPerLoop stepsPerLoop stepsPerEpoch)
        (stepsPerEpoch * epochs) ev currentStep).2 = stepsPerEpoch * epochs ∧
    (loopVisitedSteps fuel stepsPerEpoch
        (effectiveStepsPerLoop stepsPerLoop stepsPerEpoch)
        (stepsPerEpoch * epochs) currentStep).length ≤
      stepsPerEpoch * epochs - currentStep + 1 := by
  have heff1 : 1 ≤ effectiveStepsPerLoop stepsPerLoop stepsPerEpoch := by
    unfold effectiveStepsPerLoop
    split_ifs <;> omega
  have heff2 : effectiveStepsPerLoop stepsPerLoop stepsPerEpoch ≤ stepsPerEpoch := by
    unfold effectiveStepsPerLoop
    split_ifs <;> omega
  have htot : (stepsPerEpoch * epochs) % stepsPerEpoch = 0 := Nat.mul_mod_right _ _
  exact ⟨runTrainingLoop_final _ _ heff1 heff2 fuel _ ev _ htot hcs hfuel,
    loopVisitedSteps_length _ _ heff1 heff2 fuel _ _⟩

/-- Witness for C3 at `steps_per_epoch = 2`, `epochs = 3`,
`steps_per_loop = 5` (clamped to 2), start `1`. -/
theorem claim_C3_loop_terminates_exactly_witness :
    (runTrainingLoop 7 2 (effectiveStepsPerLoop 5 2) (2 * 3) false 1).2 = 2 * 3 ∧
    (loopVisitedSteps 7 2 (effectiveStepsPerLoop 5 2) (2 * 3) 1).length ≤
      2 * 3 - 1 + 1 :=
  claim_C3_loop_terminates_exactly 2 3 5 1 (by decide) (by decide) (by decide)
    (by decide) false 7 (by decide)

/-- **C4** — `run_customized_training_loop`'s error handling is argument
validation only: it raises `ValueError` iff a positional argument was passed
(`_sentinel` set), a required argument is `None`, `eval_input_fn` is given
without `eval_steps` or `metric_fn`, `metric_fn` is given but not callable,
or the model has no `optimizer` attribute; `steps_per_loop >
steps_per_epoch` is not an error — it is clamped to `steps_per_epoch`. -/
theorem claim_C4_validation_iff (a : TrainLoopArgs) :
    ((validateTrainingArgs a).isSome ↔
      (a.sentinelProvided = true ∨
        (a.strategyNone = true ∨ a.modelFnNone = true ∨ a.lossFnNone = true ∨
          a.modelDirNone = true ∨ a.stepsPerEpochNone = true ∨
          a.trainInputFnNone = true) ∨
        (a.evalInputFnProvided = true ∧
          (a.evalStepsNone = true ∨ a.metricFnProvided = false)) ∨
        (a.metricFnProvided = true ∧ a.metricFnCallable = false) ∨
        a.modelHasOptimizer = false)) ∧
    (a.stepsPerLoop > a.stepsPerEpoch →
      effectiveStepsPerLoop a.stepsPerLoop a.stepsPerEpoch = a.stepsPerEpoch) := by
  constructor
  · unfold validateTrainingArgs
    split_ifs with hs hreq heval hmetric hopt <;>
      simp_all [Bool.or_eq_true, Bool.and_eq_true, Bool.not_eq_true'] <;> tauto
  · intro h
    simp [effectiveStepsPerLoop, h]

/-- Witness for C4: a fully valid argument set with
`steps_per_loop = 5 > steps_per_epoch = 3`. -/
theorem claim_C4_validation_iff_witness :
    ((validateTrainingArgs
        ⟨false, false, false, false, false, false, false, 5, 3,
          false, false, false, false, true⟩).isSome ↔
      (false = true ∨
        (false = true ∨ false = true ∨ false = true ∨ false = true ∨
          false = true ∨ false = true) ∨
        (false = true ∧ (false = true ∨ false = false)) ∨
        (false = true ∧ false = false) ∨
        true = false)) ∧
    effectiveStepsPerLoop 5 3 = 3 := by
  have h := claim_C4_validation_iff
    ⟨false, false, false, false, false, false, false, 5, 3,
      false, false, false, false, true⟩
  exact ⟨h.1, h.2 (by decide)⟩

/-! ## Claim theorems: IoU similarity -/

/-- **C6** — `IouSimilarity.__call__` raises `ValueError` if and only if the
rank of `groundtruth_boxes` is not 2 or 3, the rank of `anchors` is not 2 or
3, or the groundtruth rank is strictly below the anchor rank; on every pair
of box tensors satisfying the rank conditions it returns the pairwise IoU
tensor without raising. -/
theorem claim_C6_iou_rank_validation (gt anchors : BoxesTensor)
    (hg : gt.WF) (ha : anchors.WF) :
    ((∃ r, iouSimilarityCall gt anchors = .ok r) ↔
      (2 ≤ gt.rank ∧ gt.rank ≤ 3 ∧ 2 ≤ anchors.rank ∧ anchors.rank ≤ 3 ∧
        anchors.rank ≤ gt.rank)) ∧
    (∀ g b, iouSimilarityCall (.rank2 g) (.rank2 b) =
      .ok (.mat (iouMat g b))) ∧
    (∀ g b, iouSimilarityCall (.rank3 g) (.rank3 b) =
      .ok (.batched (List.zipWith iouMat g b))) ∧
    (∀ g b, iouSimilarityCall (.rank3 g) (.rank2 b) =
      .ok (.batched (g.map fun gi => iouMat gi b))) := by
  refine ⟨?_, fun g b => rfl, fun g b => rfl, fun g b => rfl⟩
  rcases gt with r | g | g <;> rcases anchors with r2 | b | b
  · obtain ⟨hr2, hr3⟩ := hg
    have hc : r < 2 ∨ r > 3 := by omega
    simp [iouSimilarityCall, BoxesTensor.rank, hc]
    omega
  · obtain ⟨hr2, hr3⟩ := hg
    have hc : r < 2 ∨ r > 3 := by omega
    simp [iouSimilarityCall, BoxesTensor.rank, hc]
    omega
  · obtain ⟨hr2, hr3⟩ := hg
    have hc : r < 2 ∨ r > 3 := by omega
    simp [iouSimilarityCall, BoxesTensor.rank, hc]
    omega
  · obtain ⟨hr2, hr3⟩ := ha
    have hc : r2 < 2 ∨ r2 > 3 := by omega
    simp [iouSimilarityCall, BoxesTensor.rank, hc]
    omega
  · simp [iouSimilarityCall, BoxesTensor.rank]
  · simp [iouSimilarityCall, BoxesTensor.rank]
  · obtain ⟨hr2, hr3⟩ := ha
    have hc : r2 < 2 ∨ r2 > 3 := by omega
    simp [iouSimilarityCall, BoxesTensor.rank, hc]
    omega
  · simp [iouSimilarityCall, BoxesTensor.rank]
  · simp [iouSimilarityCall, BoxesTensor.rank]

/-- Witness for C6: two concrete rank-2 tensors of one box each. -/
theorem claim_C6_iou_rank_validation_witness :
    ((∃ r, iouSimilarityCall (.rank2 [⟨0, 0, 1, 1⟩]) (.rank2 [⟨0, 0, 2, 2⟩]) =
        .ok r) ↔
      (2 ≤ (BoxesTensor.rank2 [⟨0, 0, 1, 1⟩]).rank ∧
        (BoxesTensor.rank2 [⟨0, 0, 1, 1⟩]).rank ≤ 3 ∧
        2 ≤ (BoxesTensor.rank2 [⟨0, 0, 2, 2⟩]).rank ∧
        (BoxesTensor.rank2 [⟨0, 0, 2, 2⟩]).rank ≤ 3 ∧
        (BoxesTensor.rank2 [⟨0, 0, 2, 2⟩]).rank ≤
          (BoxesTensor.rank2 [⟨0, 0, 1, 1⟩]).rank)) ∧
    (∀ g b, iouSimilarityCall (.rank2 g) (.rank2 b) =
      .ok (.mat (iouMat g b))) ∧
    (∀ g b, iouSimilarityCall (.rank3 g) (.rank3 b) =
      .ok (.batched (List.zipWith iouMat g b))) ∧
    (∀ g b, iouSimilarityCall (.rank3 g) (.rank2 b) =
      .ok (.batched (g.map fun gi => iouMat gi b))) :=
  claim_C6_iou_rank_validation (.rank2 [⟨0, 0, 1, 1⟩]) (.rank2 [⟨0, 0, 2, 2⟩])
    trivial trivial

/-- Positional access into the pairwise matrices. -/
theorem iouMat_getD (gtBoxes boxes : List Box) (i j : Nat) (d : ℚ)
    (hi : i < gtBoxes.length) (hj : j < boxes.length) :
    ((iouMat gtBoxes boxes).getD i []).getD j d =
      iouElem (gtBoxes.getD i default) (boxes.getD j default) := by
  have hi' : i < (iouMat gtBoxes boxes).length := by
    simpa [iouMat] using hi
  have hrow : (iouMat gtBoxes boxes).getD i [] =
      List.map (fun b => iouElem (gtBoxes.getD i default) b) boxes := by
    rw [List.getD_eq_getElem _ _ hi']
    unfold iouMat
    rw [List.getElem_map, List.getD_eq_getElem _ _ hi]
  rw [hrow]
  have hj' : j <
      (List.map (fun b => iouElem (gtBoxes.getD i default) b) boxes).length := by
    simpa using hj
  rw [List.getD_eq_getElem _ _ hj', List.getElem_map,
    List.getD_eq_getElem _ _ hj]

/-- Positional access into the pairwise intersection matrix. -/
theorem intersectionMat_getD (gtBoxes boxes : List Box) (i j : Nat) (d : ℚ)
    (hi : i < gtBoxes.length) (hj : j < boxes.length) :
    ((intersectionMat gtBoxes boxes).getD i []).getD j d =
      intersectionElem (gtBoxes.getD i default) (boxes.getD j default) := by
  have hi' : i < (intersectionMat gtBoxes boxes).length := by
    simpa [intersectionMat] using hi
  have hrow : (intersectionMat gtBoxes boxes).getD i [] =
      List.map (fun b => intersectionElem (gtBoxes.getD i default) b) boxes := by
    rw [List.getD_eq_getElem _ _ hi']
    unfold intersectionMat
    rw [List.getElem_map, List.getD_eq_getElem _ _ hi]
  rw [hrow]
  have hj' : j <
      (List.map (fun b => intersectionElem (gtBoxes.getD i default) b)
        boxes).length := by
    simpa using hj
  rw [List.getD_eq_getElem _ _ hj', List.getElem_map,
    List.getD_eq_getElem _ _ hj]

/-- **C8** — The `iou` function is division-safe: wherever the pairwise
intersection area is exactly `0`, the returned IoU value is exactly `0` (the
`tf.where` guard selects the zero branch instead of the quotient), so pairs
of degenerate zero-area boxes yield IoU `0` rather than `0/0`. -/
theorem claim_C8_iou_division_safe (gtBoxes boxes : List Box) (i j : Nat)
    (hi : i < gtBoxes.length) (hj : j < boxes.length)
    (h0 : ((intersectionMat gtBoxes boxes).getD i []).getD j 1 = 0) :
    (∀ g b : Box, intersectionElem g b = 0 → iouElem g b = 0) ∧
    ((iouMat gtBoxes boxes).getD i []).getD j 1 = 0 := by
  have helem : ∀ g b : Box, intersectionElem g b = 0 → iouElem g b = 0 := by
    intro g b hgb
    unfold iouElem
    simp [hgb]
  refine ⟨helem, ?_⟩
  rw [iouMat_getD _ _ _ _ _ hi hj]
  exact helem _ _ (by rw [intersectionMat_getD _ _ _ _ _ hi hj] at h0; exact h0)

/-- Witness for C8: two degenerate zero-area boxes (single points). -/
theorem claim_C8_iou_division_safe_witness :
    (∀ g b : Box, intersectionElem g b = 0 → iouElem g b = 0) ∧
    ((iouMat [⟨1, 1, 1, 1⟩] [⟨1, 1, 1, 1⟩]).getD 0 []).getD 0 1 = 0 :=
  claim_C8_iou_division_safe [⟨1, 1, 1, 1⟩] [⟨1, 1, 1, 1⟩] 0 0
    (by decide) (by decide)
    (by simp [intersectionMat, intersectionElem])

/-! ## Claim theorems: 3-D preprocessing -/

/-- Reading position `k` of `range L` tiled `n` times yields `k % L`: the
tiled index list is the cyclic repetition of `0, …, L-1`. -/
theorem tiled_range_getD (L n k : Nat) (hL : 1 ≤ L) (hk : k < n * L) :
    ((List.replicate n (List.range L)).flatten).getD k 0 = k % L := by
  induction n generalizing k with
  | zero => omega
  | succ m ih =>
    rw [List.replicate_succ, List.flatten_cons]
    by_cases hkL : k < L
    · rw [List.getD_append _ _ _ _ (by simpa using hkL)]
      rw [List.getD_eq_getElem _ _ (by simpa using hkL), List.getElem_range]
      exact (Nat.mod_eq_of_lt hkL).symm
    · rw [List.getD_append_right _ _ _ _ (by simpa using hkL),
        List.length_range]
      have hk' : k - L < m * L := by
        have hsm : (m + 1) * L = m * L + L := by ring
        omega
      rw [ih (k - L) hk']
      exact (Nat.mod_eq_sub_mod (by omega)).symm

/-- The index list `_sample_or_pad_sequence_indices` computes, in closed
form: exactly `num_steps` entries, entry `i` equal to
`(offset + i * stride) % sequence_length`. -/
theorem sampleOrPadSequenceIndices_spec (L numSteps stride offset : Nat)
    (hL : 1 ≤ L) (hstride : 1 ≤ stride) :
    (sampleOrPadSequenceIndices L numSteps stride offset).length = numSteps ∧
    ∀ i, i < numSteps →
      (sampleOrPadSequenceIndices L numSteps stride offset).getD i 0 =
        (offset + i * stride) % L := by
  constructor
  · simp [sampleOrPadSequenceIndices]
  · intro i hi
    unfold sampleOrPadSequenceIndices
    have hlen : i < ((List.range numSteps).map fun i => offset + i * stride).length := by
      simpa using hi
    rw [List.getD_eq_getElem _ _ (by simpa using hlen), List.getElem_map,
      List.getElem_map, List.getElem_range]
    have hbound : offset + i * stride <
        ((numSteps * stride + offset + L - 1) / L) * L := by
      have hceil := Nat.div_add_mod (numSteps * stride + offset + L - 1) L
      have hmod : (numSteps * stride + offset + L - 1) % L < L :=
        Nat.mod_lt _ (by omega)
      have histride : i * stride < numSteps * stride :=
        Nat.mul_lt_mul_of_lt_of_le hi le_rfl (by omega)
      have hcomm : ((numSteps * stride + offset + L - 1) / L) * L =
          L * ((numSteps * stride + offset + L - 1) / L) := Nat.mul_comm _ _
      omega
    exact tiled_range_getD L _ _ hL hbound

/-- **C9** — Sequence sampling is cyclic with a closed form: for a sequence
of length `L ≥ 1`, `num_steps ≥ 1`, `stride ≥ 1` and any `offset`,
`_sample_or_pad_sequence_indices` returns exactly `num_steps` indices, the
`i`-th equal to `(offset + i*stride) % L` and hence in `[0, L)`; and
`sample_sequence` always returns a result of length `num_steps`, even when
`num_steps * stride` exceeds `L`. -/
theorem claim_C9_cyclic_sampling (L numSteps stride offset : Nat)
    (hL : 1 ≤ L) (hns : 1 ≤ numSteps) (hstride : 1 ≤ stride) :
    (sampleOrPadSequenceIndices L numSteps stride offset).length = numSteps ∧
    (∀ i, i < numSteps →
      (sampleOrPadSequenceIndices L numSteps stride offset).getD i 0 =
        (offset + i * stride) % L ∧
      (sampleOrPadSequenceIndices L numSteps stride offset).getD i 0 < L) ∧
    (∀ (α : Type) (seq : List α) (random : Bool) (randDraw : Nat) (pad : α),
      seq.length = L →
      (sampleSequence seq numSteps random stride randDraw pad).length =
        numSteps) := by
  obtain ⟨hlen, hidx⟩ :=
    sampleOrPadSequenceIndices_spec L numSteps stride offset hL hstride
  refine ⟨hlen, ?_, ?_⟩
  · intro i hi
    refine ⟨hidx i hi, ?_⟩
    rw [hidx i hi]
    exact Nat.mod_lt _ (by omega)
  · intro α seq random randDraw pad hseq
    unfold sampleSequence
    rw [hseq]
    simp [(sampleOrPadSequenceIndices_spec L numSteps stride _ hL hstride).1]

/-- Witness for C9 at `L = 3`, `num_steps = 5`, `stride = 2`,
`offset = 1` (so `num_steps * stride > L` and wrap-around occurs). -/
theorem claim_C9_cyclic_sampling_witness :
    (sampleOrPadSequenceIndices 3 5 2 1).length = 5 ∧
    ((sampleOrPadSequenceIndices 3 5 2 1).getD 2 0 = (1 + 2 * 2) % 3 ∧
      (sampleOrPadSequenceIndices 3 5 2 1).getD 2 0 < 3) ∧
    (sampleSequence [10, 20, 30] 5 false 2 0 0).length = 5 := by
  have h := claim_C9_cyclic_sampling 3 5 2 1 (by decide) (by decide) (by decide)
  exact ⟨h.1, h.2.1 2 (by decide), h.2.2 Nat [10, 20, 30] false 0 0 (by decide)⟩

/-- **C10** — `resize_smallest` makes the smaller output dimension exactly
`min_resize` and is the identity when the input already has the target
dimensions: for `h, w, min_resize ≥ 1`, `min(output_h, output_w) =
min_resize`, and whenever `(output_h, output_w) = (h, w)` the frames value is
returned unchanged, whatever the framework resize function would do. -/
theorem claim_C10_resize_smallest (h w m : Nat)
    (hh : 1 ≤ h) (hw : 1 ≤ w) (hm : 1 ≤ m) :
    min (resizeOutputH h w m) (resizeOutputW h w m) = m ∧
    (∀ (resizeFn : Frames → Nat → Nat → Frames) (f : Frames),
      f.height = h → f.width = w →
      resizeOutputH h w m = h → resizeOutputW h w m = w →
      resizeSmallest resizeFn f m = f) := by
  constructor
  · rcases Nat.le_total h w with hle | hle
    · have hdiv : h * m / w ≤ m := by
        calc h * m / w ≤ w * m / w :=
              Nat.div_le_div_right (Nat.mul_le_mul_right m hle)
          _ = m := Nat.mul_div_cancel_left m (by omega)
      have h1 : resizeOutputH h w m = m := by
        unfold resizeOutputH
        exact Nat.max_eq_left hdiv
      rw [h1]
      exact min_eq_left (le_max_left _ _)
    · have hdiv : w * m / h ≤ m := by
        calc w * m / h ≤ h * m / h :=
              Nat.div_le_div_right (Nat.mul_le_mul_right m hle)
          _ = m := Nat.mul_div_cancel_left m (by omega)
      have h1 : resizeOutputW h w m = m := by
        unfold resizeOutputW
        exact Nat.max_eq_left hdiv
      rw [h1]
      exact min_eq_right (le_max_left _ _)
  · intro resizeFn f hfh hfw hoh how
    unfold resizeSmallest
    rw [hfh, hfw, hoh, how]
    simp

/-- Witness for C10 at `h = 4`, `w = 2`, `min_resize = 2` — the identity
case (`output_h = 4`, `output_w = 2`), with an adversarial resize
function. -/
theorem claim_C10_resize_smallest_witness :
    min (resizeOutputH 4 2 2) (resizeOutputW 4 2 2) = 2 ∧
    resizeSmallest (fun _ _ _ => ⟨0, 0, 0, 0, 0⟩) ⟨10, 4, 2, 3, 99⟩ 2 =
      (⟨10, 4, 2, 3, 99⟩ : Frames) := by
  have h := claim_C10_resize_smallest 4 2 2 (by decide) (by decide) (by decide)
  exact ⟨h.1, h.2 (fun _ _ _ => ⟨0, 0, 0, 0, 0⟩) ⟨10, 4, 2, 3, 99⟩
    rfl rfl (by decide) (by decide)⟩

/-! ## Claim theorem: transformer encoder block -/

/-- **C5** — With every dropout rate equal to `0`, a built
`TransformerEncoderBlock` is a deterministic function of its inputs and
weights: two calls with arbitrary, unrelated random streams return the same
result (including the same raised exception in the degenerate
configurations), for every input tensor and optional attention mask.  In the
embedding the layer state is read-only by construction, matching the
stateless-functional-transform reading. -/
theorem claim_C5_encoder_block_deterministic {T : Type}
    (L : EncoderBlockLayer T)
    (h1 : L.outputDropoutRate = 0) (h2 : L.attentionDropoutRate = 0)
    (h3 : L.innerDropoutRate = 0) (R1 R2 : DropoutNoise T)
    (inputTensor : T) (attentionMask : Option T) :
    transformerEncoderBlockCall L R1 inputTensor attentionMask =
      transformerEncoderBlockCall L R2 inputTensor attentionMask := by
  unfold transformerEncoderBlockCall encoderFeedForward dropoutLayer
  rw [h1, h2, h3]
  simp

/-- Witness for C5: the concrete all-rates-zero integer layer, two different
noise streams, input `5`, no mask. -/
theorem claim_C5_encoder_block_deterministic_witness :
    transformerEncoderBlockCall intEncoderLayer noiseA 5 none =
      transformerEncoderBlockCall intEncoderLayer noiseB 5 none :=
  claim_C5_encoder_block_deterministic intEncoderLayer rfl rfl rfl
    noiseA noiseB 5 none

end ModelsVerification
